import Mathlib

/-
Verification of the DaisySP delay-line primitive (`DelayLineView<T>` from
the repository header, declared alongside `phasor.cpp`).

Embedding conventions:
- The sample type `T` and the C++ `float` values are modelled by exact
  rationals (`ℚ`); all arithmetic identities are stated over exact
  arithmetic.
- `size_t` is modelled as `ℕ`; where the C++ code converts a signed value
  to `size_t`, the conversion is rendered explicitly as reduction modulo
  `2 ^ 64` (`toUSize64`), and conversion of an unsigned expression to
  `int32_t` is rendered as two-complement reduction modulo `2 ^ 32`
  (`toInt32`).
- The C++ cast `static_cast<int32_t>(floatValue)` truncates toward zero;
  it is rendered by `cppTrunc` via `Int.tdiv` on the reduced
  numerator/denominator of the rational.
- The backing store `line_` is a `List ℚ`; element access `line_[i]`
  (always in bounds in the source because every index is reduced
  modulo `max_size_`) is rendered as `List.getD _ i 0`.
- Methods that are `const` in the source (the reads) become pure
  functions `DelayLineView → ... → ℚ`; mutating methods return the
  updated record.
-/

namespace daisysp

/-- Conversion of a (possibly negative) integer value to the 64-bit
unsigned `size_t`, as performed by C++ integral conversions: reduction
modulo `2 ^ 64`. -/
def toUSize64 (i : Int) : ℕ := (i % (2 ^ 64 : Int)).toNat

/-- Conversion of an integer value to `int32_t`: two-complement
wraparound into the range `[-2 ^ 31, 2 ^ 31)`. -/
def toInt32 (i : Int) : Int := (i + 2 ^ 31) % (2 ^ 32 : Int) - 2 ^ 31

/-- Truncation toward zero of a rational, as performed by
`static_cast<int32_t>` applied to a floating-point value (the in-range
requirement of that cast is carried as a hypothesis where it matters). -/
def cppTrunc (q : ℚ) : Int := Int.tdiv q.num (q.den : Int)

/-- State of `DelayLineView<T>` (file `delay line` header in the
repository): backing store pointer plus length, write cursor, stored
integer delay, and stored fractional delay. Field names drop the
trailing underscore of the C++ members. -/
structure DelayLineView where
  line : List ℚ
  max_size : ℕ
  write_ptr : ℕ
  delay : ℕ
  frac : ℚ

/-- Method `Reset()`: zero the first `max_size_` slots of the backing
store, set `write_ptr_ = 0` and `delay_ = 1`. The member `frac_` is not
touched, exactly as in the source. -/
def Reset (st : DelayLineView) : DelayLineView :=
  { st with
    line := List.replicate st.max_size 0 ++ st.line.drop st.max_size
    write_ptr := 0
    delay := 1 }

/-- Method `Init(buf, max_size)`: bind the backing store and capacity,
then `Reset()`. The member `frac_` is left uninitialized by the source,
so the embedding takes its arbitrary initial value as a parameter. -/
def Init (buf : List ℚ) (max_size : ℕ) (frac0 : ℚ) : DelayLineView :=
  Reset { line := buf, max_size := max_size, write_ptr := 0, delay := 0, frac := frac0 }

/-- Method `SetDelay(size_t delay)`. -/
def SetDelayNat (st : DelayLineView) (delay : ℕ) : DelayLineView :=
  { st with
    frac := 0
    delay := if delay < st.max_size then delay else st.max_size - 1 }

/-- Method `SetDelay(float delay)`: `int_delay = static_cast<int32_t>(delay)`,
`frac_ = delay - int_delay`, and `delay_` is `int_delay` converted to
`size_t` when that converted value is below `max_size_`, else
`max_size_ - 1`. -/
def SetDelayF (st : DelayLineView) (delay : ℚ) : DelayLineView :=
  { st with
    frac := delay - (cppTrunc delay : ℚ)
    delay := if toUSize64 (cppTrunc delay) < st.max_size
             then toUSize64 (cppTrunc delay)
             else st.max_size - 1 }

/-- Method `Write(sample)`: store at `write_ptr_`, then
`write_ptr_ = (write_ptr_ - 1 + max_size_) % max_size_`. The unsigned
wraparound of `write_ptr_ - 1` at `write_ptr_ = 0` is rendered by adding
`max_size_` before subtracting one, which yields the same slot. -/
def Write (st : DelayLineView) (sample : ℚ) : DelayLineView :=
  { st with
    line := st.line.set st.write_ptr sample
    write_ptr := (st.write_ptr + st.max_size - 1) % st.max_size }

/-- Method `Read()` (zero arguments): linear interpolation between the
slots at `(write_ptr_ + delay_) % max_size_` and
`(write_ptr_ + delay_ + 1) % max_size_` with blend weight `frac_`. -/
def Read (st : DelayLineView) : ℚ :=
  st.line.getD ((st.write_ptr + st.delay) % st.max_size) 0
    + (st.line.getD ((st.write_ptr + st.delay + 1) % st.max_size) 0
        - st.line.getD ((st.write_ptr + st.delay) % st.max_size) 0) * st.frac

/-- Method `Read(float delay)`: the integer/fractional split is taken
from the argument; the two fetch indices mix the `size_t` cursor with the
`int32_t` integral part, so the sums are reduced modulo `2 ^ 64` before
the final `% max_size_`. -/
def ReadF (st : DelayLineView) (delay : ℚ) : ℚ :=
  st.line.getD (toUSize64 ((st.write_ptr : Int) + cppTrunc delay) % st.max_size) 0
    + (st.line.getD (toUSize64 ((st.write_ptr : Int) + cppTrunc delay + 1) % st.max_size) 0
        - st.line.getD (toUSize64 ((st.write_ptr : Int) + cppTrunc delay) % st.max_size) 0)
      * (delay - (cppTrunc delay : ℚ))

/-- Method `ReadHermite(float delay)`: the source forms
`int32_t t = write_ptr_ + delay_integral + max_size_` (an unsigned sum
converted to `int32_t`), fetches the four taps at
`(t - 1) % max_size_ ... (t + 2) % max_size_` (each `t + j` converted
back to `size_t` by the `%` operands), and combines them with the
four-point Hermite coefficients. -/
def ReadHermite (st : DelayLineView) (delay : ℚ) : ℚ :=
  let t : Int := toInt32 ((toUSize64 ((st.write_ptr : Int) + cppTrunc delay + (st.max_size : Int)) : ℕ) : Int)
  let xm1 := st.line.getD (toUSize64 (t - 1) % st.max_size) 0
  let x0 := st.line.getD (toUSize64 t % st.max_size) 0
  let x1 := st.line.getD (toUSize64 (t + 1) % st.max_size) 0
  let x2 := st.line.getD (toUSize64 (t + 2) % st.max_size) 0
  let c := (x1 - xm1) * (1 / 2 : ℚ)
  let v := x0 - x1
  let w := c + v
  let a := w + v + (x2 - x0) * (1 / 2 : ℚ)
  let b_neg := w + a
  let f := delay - (cppTrunc delay : ℚ)
  (((a * f) - b_neg) * f + c) * f + x0

/-- Method `Allpass(sample, delay, coefficient)`: fetch
`read = line_[(write_ptr_ + delay) % max_size_]`, write
`sample + coefficient * read` through `Write`, and return
`-write * coefficient + read`. The embedding returns the pair
(returned value, updated state). -/
def Allpass (st : DelayLineView) (sample : ℚ) (delay : ℕ) (coefficient : ℚ) : ℚ × DelayLineView :=
  (-(sample + coefficient * st.line.getD ((st.write_ptr + delay) % st.max_size) 0) * coefficient
      + st.line.getD ((st.write_ptr + delay) % st.max_size) 0,
   Write st (sample + coefficient * st.line.getD ((st.write_ptr + delay) % st.max_size) 0))

/-- Reading of `readHermite` as the specification words it (claim C6):
samples fetched at ring positions `t - 1, t, t + 1, t + 2` with
`t = writeCursor + t0`, all taken modulo capacity with mathematical
(nonnegative) modulo, combined with the stated coefficients. This
definition follows the words of the specification and is compared with
the source-derived `ReadHermite`. -/
def specReadHermite (st : DelayLineView) (delay : ℚ) : ℚ :=
  let t0 : Int := cppTrunc delay
  let f : ℚ := delay - (t0 : ℚ)
  let xm1 := st.line.getD (((st.write_ptr : Int) + t0 - 1) % (st.max_size : Int)).toNat 0
  let x0 := st.line.getD (((st.write_ptr : Int) + t0) % (st.max_size : Int)).toNat 0
  let x1 := st.line.getD (((st.write_ptr : Int) + t0 + 1) % (st.max_size : Int)).toNat 0
  let x2 := st.line.getD (((st.write_ptr : Int) + t0 + 2) % (st.max_size : Int)).toNat 0
  let c := (x1 - xm1) / 2
  let v := x0 - x1
  let w := c + v
  let a := w + v + (x2 - x0) / 2
  let b_neg := w + a
  ((a * f - b_neg) * f + c) * f + x0

/-! Arithmetic helper lemmas about the machine conversions. -/

theorem toUSize64_of_lt (x : Int) (h0 : 0 ≤ x) (h1 : x < 2 ^ 64) : toUSize64 x = x.toNat := by
  simp only [toUSize64, Int.emod_eq_of_lt h0 h1]

theorem toNat_emod_eq (x : Int) (n : ℕ) (h0 : 0 ≤ x) : (x % (n : Int)).toNat = x.toNat % n := by
  obtain ⟨m, rfl⟩ := Int.eq_ofNat_of_zero_le h0
  simp only [Int.toNat_natCast]
  omega

theorem toUSize64_mod_eq (x : Int) (n : ℕ) (h0 : 0 ≤ x) (h1 : x < 2 ^ 64) :
    toUSize64 x % n = (x % (n : Int)).toNat := by
  rw [toUSize64_of_lt x h0 h1, toNat_emod_eq x n h0]

theorem toInt32_of_range (x : Int) (h0 : 0 ≤ x) (h1 : x < 2 ^ 31) : toInt32 x = x := by
  simp only [toInt32]
  rw [Int.emod_eq_of_lt (by omega) (by omega)]
  omega

theorem emod_add_self_nat (y : Int) (n : ℕ) : (y + (n : Int)) % (n : Int) = y % (n : Int) := by
  have h := Int.add_mul_emod_self_left y (n : Int) 1
  rw [mul_one] at h
  exact h

theorem cppTrunc_eq_floor (q : ℚ) (h : 0 ≤ q) : cppTrunc q = ⌊q⌋ := by
  rw [cppTrunc, Rat.floor_def,
    Int.tdiv_eq_ediv (by exact_mod_cast Rat.num_nonneg.mpr h) (by positivity)]

theorem cppTrunc_nonneg (q : ℚ) (h : 0 ≤ q) : 0 ≤ cppTrunc q := by
  rw [cppTrunc_eq_floor q h]; exact Int.floor_nonneg.mpr h

theorem cppTrunc_cast_le (q : ℚ) (h : 0 ≤ q) : (cppTrunc q : ℚ) ≤ q := by
  rw [cppTrunc_eq_floor q h]; exact Int.floor_le q

theorem cppTrunc_lt_of_lt (q : ℚ) (b : Int) (h : 0 ≤ q) (hb : q < (b : ℚ)) : cppTrunc q < b := by
  have h1 : (cppTrunc q : ℚ) < (b : ℚ) := lt_of_le_of_lt (cppTrunc_cast_le q h) hb
  exact_mod_cast h1

theorem cppTrunc_add_nat (q : ℚ) (h : 0 ≤ q) (m : ℕ) :
    cppTrunc (q + (m : ℚ)) = cppTrunc q + m := by
  rw [cppTrunc_eq_floor _ (by positivity), cppTrunc_eq_floor q h]
  exact_mod_cast Int.floor_add_nat q m

/-! List helper lemmas about the backing store. -/

theorem getD_set_self (l : List ℚ) (i : ℕ) (a : ℚ) (h : i < l.length) :
    (l.set i a).getD i 0 = a := by
  simp [List.getD, List.getElem?_set_self, h]

theorem replicate_append_getD (n i : ℕ) (l : List ℚ) (h : i < n) :
    (List.replicate n (0 : ℚ) ++ l).getD i 0 = 0 := by
  simp [List.getD, List.getElem?_append, List.getElem?_replicate, h]

theorem replicate_append_getD_mod (n : ℕ) (l : List ℚ) (h : 1 ≤ n) (i : ℕ) :
    (List.replicate n (0 : ℚ) ++ l).getD (i % n) 0 = 0 :=
  replicate_append_getD n (i % n) l (Nat.mod_lt i (by omega))

/-- Claim C1: the zero-argument `Read()` returns
`storage[(writeCursor + d) mod capacity]
 + (storage[(writeCursor + d + 1) mod capacity]
    - storage[(writeCursor + d) mod capacity]) * f`
for `d = delayLength` and `f = delayFraction`. Mutation-freedom holds by
construction: the embedding of the `const` method is a pure function of
the state. -/
theorem C1_read_linear_interpolation (st : DelayLineView) :
    Read st
      = st.line.getD ((st.write_ptr + st.delay) % st.max_size) 0
        + (st.line.getD ((st.write_ptr + st.delay + 1) % st.max_size) 0
            - st.line.getD ((st.write_ptr + st.delay) % st.max_size) 0) * st.frac := rfl

/-- Claim C3: `Allpass(s, d, g)` returns `h - g * (s + g * h)` where `h`
is the history sample at `(writeCursor + d) mod capacity`, and its whole
state change is exactly the one produced by `Write (s + g * h)`: the new
sample lands at the old write cursor and the cursor decrements modulo
capacity, all within the single call. -/
theorem C3_allpass_fused_write_read (st : DelayLineView) (s g : ℚ) (d : ℕ) :
    (Allpass st s d g).1
      = st.line.getD ((st.write_ptr + d) % st.max_size) 0
        - g * (s + g * st.line.getD ((st.write_ptr + d) % st.max_size) 0)
    ∧ (Allpass st s d g).2 = Write st (s + g * st.line.getD ((st.write_ptr + d) % st.max_size) 0)
    ∧ (Allpass st s d g).2.line
        = st.line.set st.write_ptr (s + g * st.line.getD ((st.write_ptr + d) % st.max_size) 0)
    ∧ (Allpass st s d g).2.write_ptr = (st.write_ptr + st.max_size - 1) % st.max_size := by
  refine ⟨?_, rfl, rfl, rfl⟩
  simp only [Allpass]
  ring

/-- Claim C4: the stored-delay setters saturate at the upper bound.
`SetDelay(size_t)` yields `delay_ = min d (capacity - 1)` and zero
fraction; `SetDelay(float)` with nonnegative in-range argument `q`
stores `frac_ = q - trunc q` and `delay_ = min (trunc q) (capacity - 1)`;
in particular `SetDelay(capacity + 10)` yields `capacity - 1`. -/
theorem C4_setdelay_saturates (st : DelayLineView) (d : ℕ) (q : ℚ)
    (hq0 : 0 ≤ q) (hq1 : q < ((2 ^ 31 : Int) : ℚ)) :
    (SetDelayNat st d).delay = min d (st.max_size - 1)
    ∧ (SetDelayNat st d).frac = 0
    ∧ (SetDelayF st q).frac = q - (cppTrunc q : ℚ)
    ∧ (SetDelayF st q).delay = min (cppTrunc q).toNat (st.max_size - 1)
    ∧ (SetDelayNat st (st.max_size + 10)).delay = st.max_size - 1 := by
  have h0 : 0 ≤ cppTrunc q := cppTrunc_nonneg q hq0
  have h1 : cppTrunc q < 2 ^ 31 := cppTrunc_lt_of_lt q (2 ^ 31) hq0 hq1
  have h2 : toUSize64 (cppTrunc q) = (cppTrunc q).toNat :=
    toUSize64_of_lt (cppTrunc q) h0 (by omega)
  refine ⟨?_, rfl, rfl, ?_, ?_⟩
  · simp only [SetDelayNat]
    split_ifs <;> omega
  · simp only [SetDelayF, h2]
    split_ifs <;> omega
  · simp only [SetDelayNat]
    split_ifs <;> omega

/-- Witness for claim C4 at capacity 4, integer argument 7 and real
argument 5/2. -/
theorem C4_setdelay_saturates_witness :
    (0 : ℚ) ≤ 5 / 2 ∧ (5 / 2 : ℚ) < ((2 ^ 31 : Int) : ℚ)
    ∧ ((SetDelayNat ⟨[0, 0, 0, 0], 4, 0, 1, 0⟩ 7).delay = min 7 (4 - 1)
        ∧ (SetDelayNat (⟨[0, 0, 0, 0], 4, 0, 1, 0⟩ : DelayLineView) 7).frac = 0
        ∧ (SetDelayF ⟨[0, 0, 0, 0], 4, 0, 1, 0⟩ (5 / 2)).frac = 5 / 2 - (cppTrunc (5 / 2) : ℚ)
        ∧ (SetDelayF ⟨[0, 0, 0, 0], 4, 0, 1, 0⟩ (5 / 2)).delay = min (cppTrunc (5 / 2)).toNat (4 - 1)
        ∧ (SetDelayNat (⟨[0, 0, 0, 0], 4, 0, 1, 0⟩ : DelayLineView) (4 + 10)).delay = 4 - 1) :=
  ⟨by norm_num, by norm_num,
    C4_setdelay_saturates ⟨[0, 0, 0, 0], 4, 0, 1, 0⟩ 7 (5 / 2) (by norm_num) (by norm_num)⟩

/-- Claim C7: `Reset()` zeroes every storage slot, sets the write cursor
to 0 and the delay to 1, leaves the stored fraction untouched, and
afterwards every read operation returns silence for any delay argument,
regardless of the untouched fraction. -/
theorem C7_reset_silences (st : DelayLineView) (d : ℚ) (hN : 1 ≤ st.max_size) :
    (∀ i, i < st.max_size → (Reset st).line.getD i 0 = 0)
    ∧ (Reset st).write_ptr = 0
    ∧ (Reset st).delay = 1
    ∧ (Reset st).frac = st.frac
    ∧ Read (Reset st) = 0
    ∧ ReadF (Reset st) d = 0
    ∧ ReadHermite (Reset st) d = 0 := by
  refine ⟨?_, rfl, rfl, rfl, ?_, ?_, ?_⟩
  · intro i hi
    simp only [Reset]
    exact replicate_append_getD st.max_size i _ hi
  · simp only [Read, Reset]
    rw [replicate_append_getD_mod st.max_size _ hN, replicate_append_getD_mod st.max_size _ hN]
    ring
  · simp only [ReadF, Reset]
    rw [replicate_append_getD_mod st.max_size _ hN, replicate_append_getD_mod st.max_size _ hN]
    ring
  · simp only [ReadHermite, Reset]
    rw [replicate_append_getD_mod st.max_size _ hN, replicate_append_getD_mod st.max_size _ hN,
      replicate_append_getD_mod st.max_size _ hN, replicate_append_getD_mod st.max_size _ hN]
    ring

/-- Witness for claim C7 on a dirty state of capacity 2 with leftover
fraction 3, read back at delay 3/2. -/
theorem C7_reset_silences_witness :
    (Reset (⟨[5, 7], 2, 1, 5, 3⟩ : DelayLineView)).write_ptr = 0
    ∧ (Reset (⟨[5, 7], 2, 1, 5, 3⟩ : DelayLineView)).delay = 1
    ∧ (Reset (⟨[5, 7], 2, 1, 5, 3⟩ : DelayLineView)).frac = (⟨[5, 7], 2, 1, 5, 3⟩ : DelayLineView).frac
    ∧ Read (Reset ⟨[5, 7], 2, 1, 5, 3⟩) = 0
    ∧ ReadF (Reset ⟨[5, 7], 2, 1, 5, 3⟩) (3 / 2) = 0
    ∧ ReadHermite (Reset ⟨[5, 7], 2, 1, 5, 3⟩) (3 / 2) = 0 :=
  (C7_reset_silences ⟨[5, 7], 2, 1, 5, 3⟩ (3 / 2) (by norm_num)).2

theorem cppTrunc_neg (q : ℚ) : cppTrunc (-q) = -cppTrunc q := by
  simp only [cppTrunc, Rat.neg_num, Rat.neg_den, Int.neg_tdiv]

theorem cppTrunc_le_neg_one (q : ℚ) (h : q ≤ -1) : cppTrunc q ≤ -1 := by
  have h0 : (0 : ℚ) ≤ -q := by linarith
  have h2 : 1 ≤ cppTrunc (-q) := by
    rw [cppTrunc_eq_floor (-q) h0]
    exact Int.le_floor.mpr (by push_cast; linarith)
  have h3 := cppTrunc_neg q
  omega

/-- Claim C10 counterexample: for the strictly negative argument `-1/2`
the truncated value is `0`, which passes the `< max_size_` test, so
`delay_` becomes `0` rather than `capacity - 1 = 3`. -/
theorem C10_counterexample :
    (SetDelayF (⟨[0, 0, 0, 0], 4, 0, 1, 0⟩ : DelayLineView) (-(1 / 2))).delay = 0
    ∧ (0 : ℕ) ≠ 4 - 1 := by
  have hc : cppTrunc (-(1 / 2)) = 0 := by
    rw [cppTrunc_neg (1 / 2), cppTrunc_eq_floor (1 / 2) (by norm_num)]
    norm_num
  refine ⟨?_, by norm_num⟩
  simp only [SetDelayF]
  rw [hc]
  norm_num [toUSize64]

/-- Claim C10, amended: the clamp-to-`capacity - 1` behaviour holds for
every real argument at or below `-1` (whose truncation fits in a signed
32-bit integer, with a capacity below `2 ^ 63`): the negative truncated
value converted to an unsigned size exceeds the capacity and triggers the
upper-bound clamp, and the stored fraction is the negative remainder.
Arguments strictly between `-1` and `0` truncate to `0` and store a zero
delay length instead. -/
theorem C10_setdelayf_negative (st : DelayLineView) (q : ℚ)
    (hq : q ≤ -1) (hfit : -(2 ^ 31) ≤ cppTrunc q) (hcap : (st.max_size : Int) ≤ 2 ^ 63) :
    (SetDelayF st q).delay = st.max_size - 1
    ∧ (SetDelayF st q).frac = q - (cppTrunc q : ℚ) := by
  have h1 : cppTrunc q ≤ -1 := cppTrunc_le_neg_one q hq
  have h2 : cppTrunc q % (2 ^ 64 : Int) = cppTrunc q + 2 ^ 64 := by
    have h3 := Int.add_mul_emod_self_left (cppTrunc q) (2 ^ 64 : Int) 1
    rw [mul_one] at h3
    rw [← h3, Int.emod_eq_of_lt (by omega) (by omega)]
  have h4 : ¬ toUSize64 (cppTrunc q) < st.max_size := by
    simp only [toUSize64, h2]
    omega
  refine ⟨?_, rfl⟩
  simp only [SetDelayF, if_neg h4]

/-- Witness for the amended claim C10 at capacity 4 and argument `-3/2`. -/
theorem C10_setdelayf_negative_witness :
    (-3 / 2 : ℚ) ≤ -1 ∧ -(2 ^ 31) ≤ cppTrunc (-3 / 2) ∧ ((4 : ℕ) : Int) ≤ 2 ^ 63
    ∧ ((SetDelayF (⟨[0, 0, 0, 0], 4, 0, 1, 0⟩ : DelayLineView) (-3 / 2)).delay = 4 - 1
        ∧ (SetDelayF (⟨[0, 0, 0, 0], 4, 0, 1, 0⟩ : DelayLineView) (-3 / 2)).frac
            = -3 / 2 - (cppTrunc (-3 / 2) : ℚ)) := by
  have hc : cppTrunc (-3 / 2 : ℚ) = -1 := by
    rw [show (-3 / 2 : ℚ) = -(3 / 2) by norm_num, cppTrunc_neg (3 / 2),
      cppTrunc_eq_floor (3 / 2) (by norm_num)]
    norm_num
  refine ⟨by norm_num, by rw [hc]; norm_num, by norm_num,
    C10_setdelayf_negative ⟨[0, 0, 0, 0], 4, 0, 1, 0⟩ (-3 / 2) (by norm_num)
      (by rw [hc]; norm_num) (by norm_num)⟩

/-- Claim C5: the one-argument `Read(delay)` applies no clamp and its
fetch positions are taken modulo capacity, so adding any whole number of
capacities to the delay argument leaves the result unchanged (wraparound
aliasing rather than bounding), as long as the shifted index arithmetic
stays below `2 ^ 64`. Mutation-freedom holds by construction: the
embedding of the `const` method is a pure function of the state. -/
theorem C5_readf_wraparound (st : DelayLineView) (d : ℚ) (k : ℕ)
    (hd : 0 ≤ d)
    (hB : (st.write_ptr : Int) + cppTrunc d + 1 + ((k * st.max_size : ℕ) : Int) < 2 ^ 64) :
    ReadF st (d + ((k * st.max_size : ℕ) : ℚ)) = ReadF st d := by
  have hX0 : 0 ≤ (st.write_ptr : Int) + cppTrunc d := by
    have := cppTrunc_nonneg d hd
    omega
  have hk0 : (0 : Int) ≤ ((k * st.max_size : ℕ) : Int) := by positivity
  have ht : cppTrunc (d + ((k * st.max_size : ℕ) : ℚ)) = cppTrunc d + ((k * st.max_size : ℕ) : Int) :=
    cppTrunc_add_nat d hd (k * st.max_size)
  simp only [ReadF, ht]
  have e1 : toUSize64 ((st.write_ptr : Int) + (cppTrunc d + ((k * st.max_size : ℕ) : Int))) % st.max_size
      = toUSize64 ((st.write_ptr : Int) + cppTrunc d) % st.max_size := by
    rw [toUSize64_of_lt _ (by omega) (by omega), toUSize64_of_lt _ (by omega) (by omega)]
    have h5 : ((st.write_ptr : Int) + (cppTrunc d + ((k * st.max_size : ℕ) : Int))).toNat
        = ((st.write_ptr : Int) + cppTrunc d).toNat + k * st.max_size := by omega
    rw [h5, Nat.add_mul_mod_self_right]
  have e2 : toUSize64 ((st.write_ptr : Int) + (cppTrunc d + ((k * st.max_size : ℕ) : Int)) + 1) % st.max_size
      = toUSize64 ((st.write_ptr : Int) + cppTrunc d + 1) % st.max_size := by
    rw [toUSize64_of_lt _ (by omega) (by omega), toUSize64_of_lt _ (by omega) (by omega)]
    have h6 : ((st.write_ptr : Int) + (cppTrunc d + ((k * st.max_size : ℕ) : Int)) + 1).toNat
        = ((st.write_ptr : Int) + cppTrunc d + 1).toNat + k * st.max_size := by omega
    rw [h6, Nat.add_mul_mod_self_right]
  rw [e1, e2]
  push_cast
  ring

/-- Witness for claim C5: capacity 3 holding samples 1, 2, 3, delay 1/2
against delay 1/2 + 6 (two full wraps). -/
theorem C5_readf_wraparound_witness :
    (0 : ℚ) ≤ 1 / 2
    ∧ ((0 : ℕ) : Int) + cppTrunc (1 / 2) + 1 + ((2 * 3 : ℕ) : Int) < 2 ^ 64
    ∧ ReadF (⟨[1, 2, 3], 3, 0, 1, 0⟩ : DelayLineView) (1 / 2 + ((2 * 3 : ℕ) : ℚ))
        = ReadF (⟨[1, 2, 3], 3, 0, 1, 0⟩ : DelayLineView) (1 / 2) := by
  have hc : cppTrunc (1 / 2 : ℚ) = 0 := by
    rw [cppTrunc_eq_floor (1 / 2) (by norm_num)]
    norm_num
  have hb : ((0 : ℕ) : Int) + cppTrunc (1 / 2) + 1 + ((2 * 3 : ℕ) : Int) < 2 ^ 64 := by
    rw [hc]; norm_num
  exact ⟨by norm_num, hb, C5_readf_wraparound ⟨[1, 2, 3], 3, 0, 1, 0⟩ (1 / 2) 2 (by norm_num) hb⟩

/-- Fold of successive `Write` calls, one per audio tick. -/
def writeAll (st : DelayLineView) (vs : List ℚ) : DelayLineView := vs.foldl Write st

theorem writeAll_max_size (st : DelayLineView) (vs : List ℚ) :
    (writeAll st vs).max_size = st.max_size := by
  induction vs generalizing st with
  | nil => rfl
  | cons v vs ih => exact ih (Write st v)

theorem writeAll_length (st : DelayLineView) (vs : List ℚ) :
    (writeAll st vs).line.length = st.line.length := by
  induction vs generalizing st with
  | nil => rfl
  | cons v vs ih =>
    have h := ih (Write st v)
    simp only [Write, List.length_set] at h
    exact h

theorem writeAll_wp_lt (st : DelayLineView) (vs : List ℚ) (h2 : st.write_ptr < st.max_size) :
    (writeAll st vs).write_ptr < st.max_size := by
  induction vs generalizing st with
  | nil => exact h2
  | cons v vs ih =>
    show (writeAll (Write st v) vs).write_ptr < st.max_size
    exact ih (Write st v) (Nat.mod_lt _ (by omega))

theorem succ_pred_cursor_mod (wp N : ℕ) (h1 : wp < N) :
    ((wp + N - 1) % N + 1) % N = wp := by
  rcases Nat.eq_zero_or_pos wp with h | h
  · subst h
    simp only [Nat.zero_add]
    rw [Nat.mod_eq_of_lt (show N - 1 < N by omega), Nat.sub_add_cancel (show 1 ≤ N by omega),
      Nat.mod_self]
  · rw [show wp + N - 1 = (wp - 1) + N by omega, Nat.add_mod_right,
      Nat.mod_eq_of_lt (show wp - 1 < N by omega), show wp - 1 + 1 = wp by omega,
      Nat.mod_eq_of_lt h1]

/-- Key step for claim C2: immediately after a `Write`, the one-argument
read at delay 1 lands exactly on the slot just written, hence returns
the value just written (not the one before it). -/
theorem readF_one_write (st : DelayLineView) (s : ℚ)
    (h1 : st.write_ptr < st.max_size) (h2 : st.line.length = st.max_size)
    (h3 : (st.max_size : Int) < 2 ^ 64) :
    ReadF (Write st s) 1 = s := by
  have hc : cppTrunc 1 = 1 := by
    rw [cppTrunc_eq_floor 1 (by norm_num)]; norm_num
  have hm : (st.write_ptr + st.max_size - 1) % st.max_size < st.max_size :=
    Nat.mod_lt _ (by omega)
  have e : toUSize64 ((((st.write_ptr + st.max_size - 1) % st.max_size : ℕ) : Int) + 1) % st.max_size
      = st.write_ptr := by
    rw [toUSize64_of_lt _ (by omega) (by omega)]
    have h4 : ((((st.write_ptr + st.max_size - 1) % st.max_size : ℕ) : Int) + 1).toNat
        = (st.write_ptr + st.max_size - 1) % st.max_size + 1 := by omega
    rw [h4]
    exact succ_pred_cursor_mod st.write_ptr st.max_size h1
  simp only [ReadF, Write, hc]
  rw [e, getD_set_self st.line st.write_ptr s (by omega)]
  push_cast
  ring

theorem writeAll_take_succ (st : DelayLineView) (vs : List ℚ) (k : ℕ) (hk : k < vs.length) :
    writeAll st (vs.take (k + 1)) = Write (writeAll st (vs.take k)) (vs.get ⟨k, hk⟩) := by
  have h : vs.take (k + 1) = vs.take k ++ vs[k]?.toList := List.take_succ
  rw [writeAll, h, List.getElem?_eq_getElem hk]
  rw [List.foldl_append]
  rfl

theorem writeAll_write_ptr (st : DelayLineView) (vs : List ℚ) (h1 : st.write_ptr < st.max_size) :
    (writeAll st vs).write_ptr
      = (st.write_ptr + vs.length * (st.max_size - 1)) % st.max_size := by
  induction vs generalizing st with
  | nil => simp [writeAll, Nat.mod_eq_of_lt h1]
  | cons v vs ih =>
    show (writeAll (Write st v) vs).write_ptr = _
    rw [ih (Write st v) (Nat.mod_lt _ (by omega))]
    show ((st.write_ptr + st.max_size - 1) % st.max_size + vs.length * (st.max_size - 1)) % st.max_size
        = (st.write_ptr + (vs.length + 1) * (st.max_size - 1)) % st.max_size
    rw [Nat.mod_add_mod, Nat.succ_mul]
    congr 1
    omega

/-- Claim C2 counterexample: capacity 2, distinct values 1, 2, 3, 4
written in order. After the second write, the read at delay 1 returns 2,
the most recent value, not the second-most-recent value 1 the claim
predicts. -/
theorem C2_counterexample :
    ReadF (writeAll (Init (List.replicate 2 0) 2 0) (List.take (1 + 1) [1, 2, 3, 4])) 1 = 2
    ∧ (2 : ℚ) ≠ 1 := by
  have hc : cppTrunc 1 = 1 := by
    rw [cppTrunc_eq_floor 1 (by norm_num)]; norm_num
  constructor
  · show ReadF (⟨[1, 2], 2, 0, 1, 0⟩ : DelayLineView) 1 = 2
    simp only [ReadF, hc]
    norm_num [toUSize64, List.getD]
  · norm_num

/-- Claim C2, amended: with the per-tick order Write then Read, for any
sequence of `2 * capacity` successive distinct written values, a read at
delay 1 performed after each Write returns the MOST-recent written value
(the value of that same Write), and the write cursor returns exactly to
its starting position after the two full ring cycles, with no drift. -/
theorem C2_write_then_read_delay_one (st0 : DelayLineView) (vs : List ℚ) (k : ℕ)
    (hwp : st0.write_ptr < st0.max_size) (hlen : st0.line.length = st0.max_size)
    (hN : (st0.max_size : Int) < 2 ^ 64)
    (hvs : vs.length = 2 * st0.max_size) (hnd : vs.Nodup) (hk : k < vs.length) :
    ReadF (writeAll st0 (vs.take (k + 1))) 1 = vs.get ⟨k, hk⟩
    ∧ (writeAll st0 vs).write_ptr = st0.write_ptr := by
  constructor
  · rw [writeAll_take_succ st0 vs k hk]
    have hA := writeAll_wp_lt st0 (vs.take k) hwp
    have hB := writeAll_length st0 (vs.take k)
    have hC := writeAll_max_size st0 (vs.take k)
    exact readF_one_write _ _ (by rw [hC]; exact hA) (by rw [hB, hC, hlen]) (by rw [hC]; exact hN)
  · rw [writeAll_write_ptr st0 vs hwp, hvs]
    rw [show st0.write_ptr + 2 * st0.max_size * (st0.max_size - 1)
          = st0.write_ptr + 2 * (st0.max_size - 1) * st0.max_size by ring,
      Nat.add_mul_mod_self_right, Nat.mod_eq_of_lt hwp]

/-- Witness for the amended claim C2 at capacity 2, writing 1, 2, 3, 4
and reading after the fourth write. -/
theorem C2_write_then_read_delay_one_witness :
    ReadF (writeAll (⟨[0, 0], 2, 0, 1, 0⟩ : DelayLineView) (List.take (3 + 1) [1, 2, 3, 4])) 1
        = [(1 : ℚ), 2, 3, 4].get ⟨3, by norm_num⟩
    ∧ (writeAll (⟨[0, 0], 2, 0, 1, 0⟩ : DelayLineView) [1, 2, 3, 4]).write_ptr
        = (⟨[0, 0], 2, 0, 1, 0⟩ : DelayLineView).write_ptr :=
  C2_write_then_read_delay_one ⟨[0, 0], 2, 0, 1, 0⟩ [1, 2, 3, 4] 3 (by norm_num) (by norm_num)
    (by norm_num) (by norm_num) (by norm_num [List.nodup_cons]) (by norm_num)

/-- Normalization of the `ReadHermite` fetch index: under the in-range
side conditions the machine conversions are the identity and the index
collapses to the mathematical ring position `(writeCursor + t0 + j) mod
capacity`. -/
theorem hermite_core_idx (wp N : ℕ) (t0 j : Int)
    (hN : 1 ≤ N) (ht0 : 0 ≤ t0) (hj1 : -1 ≤ j) (hj2 : j ≤ 2)
    (hB : (wp : Int) + t0 + (N : Int) + 2 < 2 ^ 31) :
    toUSize64 (toInt32 ((toUSize64 ((wp : Int) + t0 + (N : Int)) : ℕ) : Int) + j) % N
      = (((wp : Int) + t0 + j) % (N : Int)).toNat := by
  have hX0 : 0 ≤ (wp : Int) + t0 + (N : Int) := by omega
  have hX1 : (wp : Int) + t0 + (N : Int) < 2 ^ 31 := by omega
  rw [toUSize64_of_lt _ hX0 (by omega), Int.toNat_of_nonneg hX0, toInt32_of_range _ hX0 hX1,
    toUSize64_of_lt _ (by omega) (by omega),
    show (wp : Int) + t0 + (N : Int) + j = (wp : Int) + t0 + j + (N : Int) by ring,
    ← toNat_emod_eq ((wp : Int) + t0 + j + (N : Int)) N (by omega),
    emod_add_self_nat ((wp : Int) + t0 + j) N]

theorem hermite_core_idx0 (wp N : ℕ) (t0 : Int)
    (hN : 1 ≤ N) (ht0 : 0 ≤ t0)
    (hB : (wp : Int) + t0 + (N : Int) + 2 < 2 ^ 31) :
    toUSize64 (toInt32 ((toUSize64 ((wp : Int) + t0 + (N : Int)) : ℕ) : Int)) % N
      = (((wp : Int) + t0) % (N : Int)).toNat := by
  have h := hermite_core_idx wp N t0 0 hN ht0 (by norm_num) (by norm_num) hB
  simpa using h

theorem hermite_core_idxm1 (wp N : ℕ) (t0 : Int)
    (hN : 1 ≤ N) (ht0 : 0 ≤ t0)
    (hB : (wp : Int) + t0 + (N : Int) + 2 < 2 ^ 31) :
    toUSize64 (toInt32 ((toUSize64 ((wp : Int) + t0 + (N : Int)) : ℕ) : Int) - 1) % N
      = (((wp : Int) + t0 - 1) % (N : Int)).toNat := by
  have h := hermite_core_idx wp N t0 (-1) hN ht0 (by norm_num) (by norm_num) hB
  simpa [sub_eq_add_neg] using h

/-- Claim C6: under the in-range side conditions, `ReadHermite` fetches
the four samples at ring positions `t - 1, t, t + 1, t + 2` for
`t = writeCursor + t0` (all modulo capacity) and combines them exactly by
the Catmull-Rom-style formula stated in the specification
(`specReadHermite`). -/
theorem C6_readhermite_formula (st : DelayLineView) (d : ℚ)
    (hd : 0 ≤ d) (hN : 1 ≤ st.max_size)
    (hB : (st.write_ptr : Int) + cppTrunc d + (st.max_size : Int) + 2 < 2 ^ 31) :
    ReadHermite st d = specReadHermite st d := by
  have ht0 : 0 ≤ cppTrunc d := cppTrunc_nonneg d hd
  simp only [ReadHermite, specReadHermite]
  rw [hermite_core_idxm1 st.write_ptr st.max_size (cppTrunc d) hN ht0 hB,
    hermite_core_idx0 st.write_ptr st.max_size (cppTrunc d) hN ht0 hB,
    hermite_core_idx st.write_ptr st.max_size (cppTrunc d) 1 hN ht0 (by norm_num) (by norm_num) hB,
    hermite_core_idx st.write_ptr st.max_size (cppTrunc d) 2 hN ht0 (by norm_num) (by norm_num) hB]
  ring

/-- Witness for claim C6 at capacity 5 holding 1 ... 5, delay 3/2. -/
theorem C6_readhermite_formula_witness :
    (0 : ℚ) ≤ 3 / 2
    ∧ ReadHermite (⟨[1, 2, 3, 4, 5], 5, 0, 1, 0⟩ : DelayLineView) (3 / 2)
        = specReadHermite (⟨[1, 2, 3, 4, 5], 5, 0, 1, 0⟩ : DelayLineView) (3 / 2) := by
  have hc : cppTrunc (3 / 2 : ℚ) = 1 := by
    rw [cppTrunc_eq_floor (3 / 2) (by norm_num)]; norm_num
  refine ⟨by norm_num, C6_readhermite_formula _ _ (by norm_num) (by norm_num) ?_⟩
  show ((0 : ℕ) : Int) + cppTrunc (3 / 2) + ((5 : ℕ) : Int) + 2 < 2 ^ 31
  rw [hc]; norm_num

/-- Claim C8: when the stored samples are linear in the delay offset
across the fetched neighborhood (values `α + β * j` at ring position
`(writeCursor + j) mod capacity` for `j` ranging over the four offsets
around the integer part of `d`), both the linear-interpolating
`Read(float)` and `ReadHermite` reproduce the ramp value `α + β * d`
exactly: both interpolation schemes are exact on linear data. -/
theorem C8_linear_ramp_exact (st : DelayLineView) (d α β : ℚ)
    (hd : 0 ≤ d) (hN : 1 ≤ st.max_size)
    (hB : (st.write_ptr : Int) + cppTrunc d + (st.max_size : Int) + 2 < 2 ^ 31)
    (hm1 : st.line.getD (((st.write_ptr : Int) + cppTrunc d - 1) % (st.max_size : Int)).toNat 0
        = α + β * ((cppTrunc d : ℚ) - 1))
    (h0 : st.line.getD (((st.write_ptr : Int) + cppTrunc d) % (st.max_size : Int)).toNat 0
        = α + β * (cppTrunc d : ℚ))
    (h1 : st.line.getD (((st.write_ptr : Int) + cppTrunc d + 1) % (st.max_size : Int)).toNat 0
        = α + β * ((cppTrunc d : ℚ) + 1))
    (h2 : st.line.getD (((st.write_ptr : Int) + cppTrunc d + 2) % (st.max_size : Int)).toNat 0
        = α + β * ((cppTrunc d : ℚ) + 2)) :
    ReadF st d = α + β * d ∧ ReadHermite st d = α + β * d := by
  have ht0 : 0 ≤ cppTrunc d := cppTrunc_nonneg d hd
  constructor
  · simp only [ReadF]
    rw [toUSize64_mod_eq _ _ (by omega) (by omega), toUSize64_mod_eq _ _ (by omega) (by omega),
      h0, h1]
    ring
  · simp only [ReadHermite]
    rw [hermite_core_idxm1 st.write_ptr st.max_size (cppTrunc d) hN ht0 hB,
      hermite_core_idx0 st.write_ptr st.max_size (cppTrunc d) hN ht0 hB,
      hermite_core_idx st.write_ptr st.max_size (cppTrunc d) 1 hN ht0 (by norm_num) (by norm_num) hB,
      hermite_core_idx st.write_ptr st.max_size (cppTrunc d) 2 hN ht0 (by norm_num) (by norm_num) hB,
      hm1, h0, h1, h2]
    ring

/-- Witness for claim C8: ramp 10, 12, 14, 16 stored at ring positions
0 ... 3 of a capacity-8 buffer, read at fractional delay 3/2; both reads
return 10 + 2 * (3/2) = 13. -/
theorem C8_linear_ramp_exact_witness :
    (0 : ℚ) ≤ 3 / 2
    ∧ (ReadF (⟨[10, 12, 14, 16, 0, 0, 0, 0], 8, 0, 1, 0⟩ : DelayLineView) (3 / 2)
          = 10 + 2 * (3 / 2)
        ∧ ReadHermite (⟨[10, 12, 14, 16, 0, 0, 0, 0], 8, 0, 1, 0⟩ : DelayLineView) (3 / 2)
          = 10 + 2 * (3 / 2)) := by
  have hc : cppTrunc (3 / 2 : ℚ) = 1 := by
    rw [cppTrunc_eq_floor (3 / 2) (by norm_num)]; norm_num
  refine ⟨by norm_num, C8_linear_ramp_exact ⟨[10, 12, 14, 16, 0, 0, 0, 0], 8, 0, 1, 0⟩
    (3 / 2) 10 2 (by norm_num) (by norm_num) ?_ ?_ ?_ ?_ ?_⟩
  · show ((0 : ℕ) : Int) + cppTrunc (3 / 2) + ((8 : ℕ) : Int) + 2 < 2 ^ 31
    rw [hc]; norm_num
  · show ([(10 : ℚ), 12, 14, 16, 0, 0, 0, 0]).getD
        ((((0 : ℕ) : Int) + cppTrunc (3 / 2) - 1) % ((8 : ℕ) : Int)).toNat 0
        = 10 + 2 * ((cppTrunc (3 / 2) : ℚ) - 1)
    rw [hc]; norm_num [List.getD]
  · show ([(10 : ℚ), 12, 14, 16, 0, 0, 0, 0]).getD
        ((((0 : ℕ) : Int) + cppTrunc (3 / 2)) % ((8 : ℕ) : Int)).toNat 0
        = 10 + 2 * ((cppTrunc (3 / 2) : ℚ))
    rw [hc]; norm_num [List.getD]
  · show ([(10 : ℚ), 12, 14, 16, 0, 0, 0, 0]).getD
        ((((0 : ℕ) : Int) + cppTrunc (3 / 2) + 1) % ((8 : ℕ) : Int)).toNat 0
        = 10 + 2 * ((cppTrunc (3 / 2) : ℚ) + 1)
    rw [hc]; norm_num [List.getD]
    rfl
  · show ([(10 : ℚ), 12, 14, 16, 0, 0, 0, 0]).getD
        ((((0 : ℕ) : Int) + cppTrunc (3 / 2) + 2) % ((8 : ℕ) : Int)).toNat 0
        = 10 + 2 * ((cppTrunc (3 / 2) : ℚ) + 2)
    rw [hc]; norm_num [List.getD]
    rfl

/-- Operation alphabet of the public interface, used to state the
reachability invariant of claim C9. Read operations leave the state
unchanged, matching their `const` qualification in the source. -/
inductive Op where
  | write (s : ℚ)
  | setDelayNat (d : ℕ)
  | setDelayF (d : ℚ)
  | allpass (s : ℚ) (d : ℕ) (g : ℚ)
  | reset
  | read
  | readF (d : ℚ)
  | readHermite (d : ℚ)

/-- Stated precondition of the specification on delay arguments: the
stored-delay setters receive arguments of at least 1 and, for the float
overload, small enough for the `int32_t` cast to be defined behaviour. -/
def OpOK : Op → Prop
  | Op.setDelayNat d => 1 ≤ d
  | Op.setDelayF d => 1 ≤ d ∧ d < ((2 ^ 31 : Int) : ℚ)
  | _ => True

instance (op : Op) : Decidable (OpOK op) := by
  cases op <;> simp only [OpOK] <;> infer_instance

/-- Interpretation of one interface call on the state. -/
def applyOp (st : DelayLineView) : Op → DelayLineView
  | Op.write s => Write st s
  | Op.setDelayNat d => SetDelayNat st d
  | Op.setDelayF d => SetDelayF st d
  | Op.allpass s d g => (Allpass st s d g).2
  | Op.reset => Reset st
  | Op.read => st
  | Op.readF _ => st
  | Op.readHermite _ => st

/-- Invariant of claim C9: the cursor stays inside the ring and the
stored delay stays within `[1, capacity - 1]`. -/
abbrev cursorDelayInv (st : DelayLineView) : Prop :=
  st.write_ptr < st.max_size ∧ 1 ≤ st.delay ∧ st.delay ≤ st.max_size - 1

theorem applyOp_max_size (st : DelayLineView) (op : Op) :
    (applyOp st op).max_size = st.max_size := by
  cases op <;> rfl

theorem applyOp_inv (st : DelayLineView) (op : Op) (hN : 2 ≤ st.max_size)
    (hinv : cursorDelayInv st) (hop : OpOK op) : cursorDelayInv (applyOp st op) := by
  obtain ⟨h1, h2, h3⟩ := hinv
  cases op with
  | write s =>
    simp only [applyOp, Write]
    exact ⟨Nat.mod_lt _ (by omega), h2, h3⟩
  | setDelayNat d =>
    simp only [OpOK] at hop
    simp only [cursorDelayInv, applyOp, SetDelayNat]
    refine ⟨h1, ?_, ?_⟩ <;> · split_ifs <;> omega
  | setDelayF d =>
    simp only [OpOK] at hop
    have ht1 : 1 ≤ cppTrunc d := by
      rw [cppTrunc_eq_floor d (by linarith [hop.1])]
      exact Int.le_floor.mpr (by exact_mod_cast hop.1)
    have ht2 : cppTrunc d < 2 ^ 31 := cppTrunc_lt_of_lt d (2 ^ 31) (by linarith [hop.1]) hop.2
    have hu : toUSize64 (cppTrunc d) = (cppTrunc d).toNat :=
      toUSize64_of_lt _ (by omega) (by omega)
    simp only [cursorDelayInv, applyOp, SetDelayF, hu]
    refine ⟨h1, ?_, ?_⟩ <;> · split_ifs <;> omega
  | allpass s d g =>
    simp only [applyOp, Allpass, Write]
    exact ⟨Nat.mod_lt _ (by omega), h2, h3⟩
  | reset =>
    simp only [cursorDelayInv, applyOp, Reset]
    refine ⟨by omega, by omega, by omega⟩
  | read => exact ⟨h1, h2, h3⟩
  | readF d => exact ⟨h1, h2, h3⟩
  | readHermite d => exact ⟨h1, h2, h3⟩

/-- Claim C9: in every state reachable from an initialized buffer of
capacity at least 2 by any sequence of interface calls whose delay
arguments are at least 1 (the stated precondition), the cursor satisfies
`0 ≤ writeCursor < capacity` and the stored delay satisfies
`1 ≤ delayLength ≤ capacity - 1`. The cursor lower bound holds for free
in the `ℕ` embedding of `size_t`. -/
theorem C9_reachable_invariants (buf : List ℚ) (N : ℕ) (f0 : ℚ) (ops : List Op)
    (hN : 2 ≤ N) (hops : ∀ op ∈ ops, OpOK op) :
    cursorDelayInv (ops.foldl applyOp (Init buf N f0)) := by
  suffices h : ∀ (l : List Op) (st : DelayLineView), st.max_size = N → cursorDelayInv st →
      (∀ op ∈ l, OpOK op) → cursorDelayInv (l.foldl applyOp st) by
    refine h ops (Init buf N f0) rfl ?_ hops
    refine ⟨?_, ?_, ?_⟩ <;> simp only [Init, Reset] <;> omega
  intro l
  induction l with
  | nil => intro st hsz hinv hops2; exact hinv
  | cons op l ih =>
    intro st hsz hinv hops2
    have hstep := applyOp_inv st op (by omega) hinv (hops2 op (List.mem_cons_self op l))
    have hsz2 := applyOp_max_size st op
    exact ih (applyOp st op) (by omega) hstep (fun o ho => hops2 o (List.mem_cons_of_mem op ho))

/-- Witness for claim C9: capacity 3, a five-call trace exercising every
mutating operation. -/
theorem C9_reachable_invariants_witness :
    (2 : ℕ) ≤ 3
    ∧ cursorDelayInv ([Op.write 1, Op.setDelayF (3 / 2), Op.allpass 2 1 (1 / 2), Op.reset,
        Op.setDelayNat 5].foldl applyOp (Init (List.replicate 3 0) 3 0)) :=
  ⟨by norm_num,
    C9_reachable_invariants (List.replicate 3 0) 3 0
      [Op.write 1, Op.setDelayF (3 / 2), Op.allpass 2 1 (1 / 2), Op.reset, Op.setDelayNat 5]
      (by norm_num)
      (by
        intro op hop
        fin_cases hop <;> simp only [OpOK] <;> norm_num)⟩

end daisysp
